import Mathlib

/-!
# Verification of the STT/TTS webhook relay pipeline

Shallow embedding, in Lean 4, of the core pipeline of the
`sst_ai_tts_api` repository:

* `src/services/webhookService.js` — chunked webhook-stream reassembly
  (`callWebhookStream`), message text extraction
  (`extractTextFromResponse`), and heuristic sentence segmentation
  (`splitIntoSentences`);
* the Express routes (`process-recording-stream`, `process-recording`,
  `process-recording-audio`) — per-sentence TTS loops and the WAV
  payload recombiner.

JavaScript strings are modelled as `List Char` (sequences of code
points), byte buffers as `List Nat` with every entry < 256, and the
external collaborators (STT, webhook, TTS) as explicit oracles.
-/

/-! ## JavaScript string primitives -/

/-- The JavaScript `\s` / `String.prototype.trim` whitespace class
(ECMA-262 WhiteSpace ∪ LineTerminator). -/
def isJsWs (c : Char) : Bool :=
  c == ' ' || c == '\t' || c == '\n' || c == '\r' ||
  c.toNat == 0x0B || c.toNat == 0x0C || c.toNat == 0xA0 ||
  c.toNat == 0x1680 || (0x2000 ≤ c.toNat && c.toNat ≤ 0x200A) ||
  c.toNat == 0x2028 || c.toNat == 0x2029 || c.toNat == 0x202F ||
  c.toNat == 0x205F || c.toNat == 0x3000 || c.toNat == 0xFEFF

/-- Model of JavaScript `String.prototype.trim`: strip the whitespace
class from both ends (here: first from the right, then from the left). -/
def jsTrim (l : List Char) : List Char :=
  ((l.reverse.dropWhile isJsWs).reverse).dropWhile isJsWs

/-- Model of JavaScript `String.prototype.split(sep)` for a one-character
separator: `"".split` is `[""]`, separators at the ends produce empty
pieces. -/
def jsSplitChar (sep : Char) : List Char → List (List Char)
  | [] => [[]]
  | c :: rest =>
    if c = sep then [] :: jsSplitChar sep rest
    else
      match jsSplitChar sep rest with
      | [] => [[c]]
      | p :: ps => (c :: p) :: ps

/-! ### Lemmas about the string primitives -/

theorem jsSplitChar_ne_nil (sep : Char) (l : List Char) :
    jsSplitChar sep l ≠ [] := by
  induction l with
  | nil => simp [jsSplitChar]
  | cons c rest ih =>
    simp only [jsSplitChar]
    split
    · simp
    · split
      · simp
      · simp

theorem jsSplitChar_head (sep : Char) (l : List Char) :
    ∃ ps, jsSplitChar sep l = l.takeWhile (fun c => !(c == sep)) :: ps := by
  induction l with
  | nil => exact ⟨[], rfl⟩
  | cons c rest ih =>
    by_cases h : c = sep
    · subst h
      refine ⟨jsSplitChar c rest, ?_⟩
      simp [jsSplitChar, List.takeWhile]
    · obtain ⟨ps, hps⟩ := ih
      refine ⟨ps, ?_⟩
      have hb : (c == sep) = false := beq_eq_false_iff_ne.mpr h
      simp only [jsSplitChar, if_neg h, hps]
      simp [List.takeWhile_cons, hb]

theorem dropWhile_getLast? {p : Char → Bool} {l : List Char}
    (h : l.dropWhile p ≠ []) : (l.dropWhile p).getLast? = l.getLast? := by
  induction l with
  | nil => simp at h
  | cons c rest ih =>
    by_cases hc : p c
    · simp only [List.dropWhile_cons, hc, if_true] at h ⊢
      have hrest : rest ≠ [] := by
        intro hr; subst hr; simp [List.dropWhile] at h
      cases rest with
      | nil => exact absurd rfl hrest
      | cons d ds => rw [ih h, List.getLast?_cons_cons]
    · simp [List.dropWhile_cons, hc]

theorem mem_dropWhile_of_not {p : Char → Bool} {l : List Char} {c : Char}
    (hmem : c ∈ l) (hc : p c = false) : c ∈ l.dropWhile p := by
  induction l with
  | nil => simp at hmem
  | cons d rest ih =>
    by_cases hd : p d
    · simp only [List.dropWhile_cons, hd, if_true]
      rcases List.mem_cons.mp hmem with h | h
      · subst h; rw [hd] at hc; exact absurd hc (by simp)
      · exact ih h
    · simp only [List.dropWhile_cons, hd, if_neg]
      simpa using hmem

theorem jsTrim_ne_nil_of_mem {l : List Char} {c : Char}
    (hmem : c ∈ l) (hc : isJsWs c = false) : jsTrim l ≠ [] := by
  unfold jsTrim
  intro hcontra
  have h1 : c ∈ l.reverse.dropWhile isJsWs :=
    mem_dropWhile_of_not (by simpa using hmem) hc
  have h2 : c ∈ (l.reverse.dropWhile isJsWs).reverse := by simpa using h1
  have h3 : c ∈ ((l.reverse.dropWhile isJsWs).reverse).dropWhile isJsWs :=
    mem_dropWhile_of_not h2 hc
  rw [hcontra] at h3
  simp at h3

theorem jsTrim_eq_nil_of_all_ws {l : List Char}
    (h : ∀ c ∈ l, isJsWs c) : jsTrim l = [] := by
  unfold jsTrim
  have h1 : l.reverse.dropWhile isJsWs = [] :=
    List.dropWhile_eq_nil_iff.mpr (by intro c hc; exact h c (by simpa using hc))
  rw [h1]
  simp

theorem jsTrim_eq_nil_iff {l : List Char} :
    jsTrim l = [] ↔ ∀ c ∈ l, isJsWs c := by
  constructor
  · intro h c hc
    by_contra hw
    exact jsTrim_ne_nil_of_mem hc (by simpa using hw) h
  · exact jsTrim_eq_nil_of_all_ws

theorem jsTrim_head_not_ws {l : List Char} (h : jsTrim l ≠ []) :
    ∃ c cs, jsTrim l = c :: cs ∧ isJsWs c = false := by
  unfold jsTrim at h ⊢
  cases hd : ((l.reverse.dropWhile isJsWs).reverse).dropWhile isJsWs with
  | nil => exact absurd hd h
  | cons c cs =>
    refine ⟨c, cs, rfl, ?_⟩
    have hne : ((l.reverse.dropWhile isJsWs).reverse).dropWhile isJsWs ≠ [] := h
    have hhead := List.head_dropWhile_not isJsWs (l.reverse.dropWhile isJsWs).reverse hne
    have h? : (((l.reverse.dropWhile isJsWs).reverse).dropWhile isJsWs).head? = some c := by
      rw [hd]; rfl
    have hh := List.head?_eq_head hne
    rw [h?] at hh
    rw [← Option.some.inj hh] at hhead
    exact hhead

theorem jsTrim_getLast_not_ws {l : List Char} (h : jsTrim l ≠ []) :
    ∃ c, (jsTrim l).getLast? = some c ∧ isJsWs c = false := by
  have hrne : l.reverse.dropWhile isJsWs ≠ [] := by
    intro hcontra
    apply h
    unfold jsTrim
    rw [hcontra]
    rfl
  have hhead := List.head_dropWhile_not isJsWs l.reverse hrne
  refine ⟨(l.reverse.dropWhile isJsWs).head hrne, ?_, hhead⟩
  unfold jsTrim at h ⊢
  rw [dropWhile_getLast? h, List.getLast?_reverse]
  exact List.head?_eq_head hrne

theorem jsTrim_eq_self {l : List Char} {c : Char} {cs : List Char}
    (hl : l = c :: cs) (hhead : isJsWs c = false) {d : Char}
    (hlast : l.getLast? = some d) (hd : isJsWs d = false) : jsTrim l = l := by
  unfold jsTrim
  have h1 : l.reverse.dropWhile isJsWs = l.reverse := by
    cases hrev : l.reverse with
    | nil => simp
    | cons x xs =>
      have hx : l.getLast? = some x := by
        rw [← List.head?_reverse, hrev]; rfl
      have hxd : x = d := by rw [hx] at hlast; exact Option.some.inj hlast
      subst hxd
      simp [List.dropWhile_cons, hd]
  rw [h1, List.reverse_reverse, hl]
  simp [List.dropWhile_cons, hhead]

theorem jsTrim_idem (l : List Char) : jsTrim (jsTrim l) = jsTrim l := by
  by_cases h : jsTrim l = []
  · rw [h]; rfl
  · obtain ⟨c, cs, hcons, hc⟩ := jsTrim_head_not_ws h
    obtain ⟨d, hdlast, hd⟩ := jsTrim_getLast_not_ws h
    exact jsTrim_eq_self hcons hc hdlast hd

/-! ## Node.js UTF-8 decoding (`Buffer.prototype.toString('utf8')`) -/

/-- The Unicode replacement character U+FFFD. -/
def replChar : Char := Char.ofNat 0xFFFD

def isContByte (b : Nat) : Bool := 0x80 ≤ b && b < 0xC0

/-- One decoding step: classify the lead byte `b`, consume its (valid)
continuation bytes from `rest`, and return the decoded character (or
U+FFFD for an invalid/truncated sequence, resuming at the first
offending byte) together with the remaining input. -/
def utf8Step (b : Nat) (rest : List Nat) : Char × List Nat :=
  if b < 0x80 then (Char.ofNat b, rest)
  else if 0xC2 ≤ b && b ≤ 0xDF then
    match rest with
    | [] => (replChar, [])
    | b2 :: rest2 =>
      if isContByte b2 then
        (Char.ofNat ((b - 0xC0) * 0x40 + (b2 - 0x80)), rest2)
      else (replChar, b2 :: rest2)
  else if 0xE0 ≤ b && b ≤ 0xEF then
    match rest with
    | [] => (replChar, [])
    | b2 :: rest2 =>
      if (if b = 0xE0 then 0xA0 else 0x80) ≤ b2 &&
         b2 ≤ (if b = 0xED then 0x9F else 0xBF) then
        match rest2 with
        | [] => (replChar, [])
        | b3 :: rest3 =>
          if isContByte b3 then
            (Char.ofNat ((b - 0xE0) * 0x1000 + (b2 - 0x80) * 0x40 + (b3 - 0x80)),
             rest3)
          else (replChar, b3 :: rest3)
      else (replChar, b2 :: rest2)
  else if 0xF0 ≤ b && b ≤ 0xF4 then
    match rest with
    | [] => (replChar, [])
    | b2 :: rest2 =>
      if (if b = 0xF0 then 0x90 else 0x80) ≤ b2 &&
         b2 ≤ (if b = 0xF4 then 0x8F else 0xBF) then
        match rest2 with
        | [] => (replChar, [])
        | b3 :: rest3 =>
          if isContByte b3 then
            match rest3 with
            | [] => (replChar, [])
            | b4 :: rest4 =>
              if isContByte b4 then
                (Char.ofNat ((b - 0xF0) * 0x40000 + (b2 - 0x80) * 0x1000 +
                   (b3 - 0x80) * 0x40 + (b4 - 0x80)), rest4)
              else (replChar, b4 :: rest4)
          else (replChar, b3 :: rest3)
      else (replChar, b2 :: rest2)
  else (replChar, rest)

/-- Fuelled decoding loop; each step consumes at least the lead byte, so
fuel equal to the input length always suffices. -/
def utf8DecodeAux : Nat → List Nat → List Char
  | 0, _ => []
  | _ + 1, [] => []
  | fuel + 1, b :: rest =>
    (utf8Step b rest).1 :: utf8DecodeAux fuel (utf8Step b rest).2

/-- Model of Node's `Buffer.prototype.toString('utf8')` on a byte list:
WHATWG-style UTF-8 decoding where every maximal invalid subsequence —
including a sequence truncated by the end of the buffer — is replaced by
U+FFFD.  Each buffer is decoded independently, which is exactly why
`buffer += chunk.toString('utf8')` in `callWebhookStream`
(src/services/webhookService.js:31) corrupts a multi-byte character that
is split across two chunks. -/
def utf8Decode (l : List Nat) : List Char := utf8DecodeAux l.length l

/-! ## JSON values and a model of `JSON.parse` -/

/-- A parsed JSON value, as produced by `JSON.parse`.  Numbers are kept
as their source lexeme; no theorem in this development depends on the
numeric value of a number beyond whether it is zero. -/
inductive JVal : Type where
  | null : JVal
  | bool (b : Bool) : JVal
  | num (lexeme : List Char) : JVal
  | str (s : List Char) : JVal
  | arr (elems : List JVal) : JVal
  | obj (fields : List (List Char × JVal)) : JVal

def isJsonWs (c : Char) : Bool := c == ' ' || c == '\t' || c == '\n' || c == '\r'

def skipWs (cs : List Char) : List Char := cs.dropWhile isJsonWs

def isHexDigit (c : Char) : Bool :=
  c.isDigit || ('a' ≤ c && c ≤ 'f') || ('A' ≤ c && c ≤ 'F')

def hexVal (c : Char) : Nat :=
  if c.isDigit then c.toNat - '0'.toNat
  else if 'a' ≤ c && c ≤ 'f' then c.toNat - 'a'.toNat + 10
  else c.toNat - 'A'.toNat + 10

/-- JSON string-body parser (the opening quote already consumed):
handles the standard escapes; a `\uXXXX` escape becomes the code unit's
code point via `Char.ofNat` (lone surrogates, which Lean's `Char` cannot
represent, fall back to `Char.ofNat`'s default and are never exercised by
the theorems below). -/
def parseStrBody : List Char → List Char → Option (List Char × List Char)
  | [], _ => none
  | c :: rest, acc =>
    if c = '\"' then some (acc.reverse, rest)
    else if c = '\\' then
      match rest with
      | [] => none
      | e :: rest2 =>
        if e = '\"' then parseStrBody rest2 ('\"' :: acc)
        else if e = '\\' then parseStrBody rest2 ('\\' :: acc)
        else if e = '/' then parseStrBody rest2 ('/' :: acc)
        else if e = 'b' then parseStrBody rest2 (Char.ofNat 8 :: acc)
        else if e = 'f' then parseStrBody rest2 (Char.ofNat 12 :: acc)
        else if e = 'n' then parseStrBody rest2 ('\n' :: acc)
        else if e = 'r' then parseStrBody rest2 ('\r' :: acc)
        else if e = 't' then parseStrBody rest2 ('\t' :: acc)
        else if e = 'u' then
          match rest2 with
          | h1 :: h2 :: h3 :: h4 :: rest3 =>
            if isHexDigit h1 && isHexDigit h2 && isHexDigit h3 && isHexDigit h4 then
              parseStrBody rest3
                (Char.ofNat (hexVal h1 * 0x1000 + hexVal h2 * 0x100 +
                  hexVal h3 * 0x10 + hexVal h4) :: acc)
            else none
          | _ => none
        else none
    else if c.toNat < 0x20 then none
    else parseStrBody rest (c :: acc)

/-- Optional fraction part of a JSON number. -/
def parseFrac (cs : List Char) : Option (List Char × List Char) :=
  match cs with
  | '.' :: u =>
    let ds := u.takeWhile Char.isDigit
    if ds = [] then none else some ('.' :: ds, u.dropWhile Char.isDigit)
  | _ => some ([], cs)

/-- Optional exponent part of a JSON number. -/
def parseExp (cs : List Char) : Option (List Char × List Char) :=
  match cs with
  | c :: u =>
    if c = 'e' ∨ c = 'E' then
      let (sgn, v) :=
        match u with
        | s :: w => if s = '+' ∨ s = '-' then ([s], w) else (([] : List Char), u)
        | [] => (([] : List Char), u)
      let ds := v.takeWhile Char.isDigit
      if ds = [] then none else some (c :: (sgn ++ ds), v.dropWhile Char.isDigit)
    else some ([], cs)
  | [] => some ([], cs)

/-- JSON number parser (grammar `-? int frac? exp?`, leading zeros
rejected as in `JSON.parse`). -/
def parseNum (cs : List Char) : Option (JVal × List Char) :=
  let (sign, cs1) :=
    match cs with
    | '-' :: t => ((['-'] : List Char), t)
    | _ => (([] : List Char), cs)
  match cs1 with
  | [] => none
  | c :: t =>
    if c.isDigit then
      let (intPart, afterInt) :=
        if c = '0' then ((['0'] : List Char), t)
        else (c :: t.takeWhile Char.isDigit, t.dropWhile Char.isDigit)
      match parseFrac afterInt with
      | none => none
      | some (fracPart, afterFrac) =>
        match parseExp afterFrac with
        | none => none
        | some (expPart, rest) =>
          some (JVal.num (sign ++ intPart ++ fracPart ++ expPart), rest)
    else none

def lbraceChar : Char := Char.ofNat 123

def rbraceChar : Char := Char.ofNat 125

mutual

/-- Fuel-indexed JSON value parser; `jsonParse` supplies enough fuel for
any input (at least one input character is consumed between two
successive fuel decrements). -/
def parseVal : Nat → List Char → Option (JVal × List Char)
  | 0, _ => none
  | fuel + 1, cs =>
    match skipWs cs with
    | [] => none
    | c :: rest =>
      if c = 'n' then
        match rest with
        | 'u' :: 'l' :: 'l' :: r => some (JVal.null, r)
        | _ => none
      else if c = 't' then
        match rest with
        | 'r' :: 'u' :: 'e' :: r => some (JVal.bool true, r)
        | _ => none
      else if c = 'f' then
        match rest with
        | 'a' :: 'l' :: 's' :: 'e' :: r => some (JVal.bool false, r)
        | _ => none
      else if c = '\"' then
        match parseStrBody rest [] with
        | some (s, r) => some (JVal.str s, r)
        | none => none
      else if c = '[' then
        match skipWs rest with
        | ']' :: r2 => some (JVal.arr [], r2)
        | r2 =>
          match parseElems fuel r2 with
          | some (vs, r3) => some (JVal.arr vs, r3)
          | none => none
      else if c = lbraceChar then
        let r2 := skipWs rest
        if r2.head? = some rbraceChar then some (JVal.obj [], r2.tail)
        else
          match parseMembers fuel r2 with
          | some (ms, r3) => some (JVal.obj ms, r3)
          | none => none
      else parseNum (c :: rest)

/-- Comma-separated array elements up to the closing bracket. -/
def parseElems : Nat → List Char → Option (List JVal × List Char)
  | 0, _ => none
  | fuel + 1, cs =>
    match parseVal fuel cs with
    | none => none
    | some (v, r) =>
      match skipWs r with
      | ',' :: r2 =>
        match parseElems fuel r2 with
        | some (vs, r3) => some (v :: vs, r3)
        | none => none
      | ']' :: r2 => some ([v], r2)
      | _ => none

/-- Comma-separated object members up to the closing brace.  Duplicate
keys are kept in order; `getField` takes the last occurrence, matching
`JSON.parse`'s last-key-wins semantics. -/
def parseMembers : Nat → List Char → Option (List (List Char × JVal) × List Char)
  | 0, _ => none
  | fuel + 1, cs =>
    match skipWs cs with
    | c :: rest =>
      if c = '\"' then
        match parseStrBody rest [] with
        | some (k, r) =>
          match skipWs r with
          | ':' :: r2 =>
            match parseVal fuel r2 with
            | some (v, r3) =>
              match skipWs r3 with
              | ',' :: r4 =>
                match parseMembers fuel r4 with
                | some (ms, r5) => some ((k, v) :: ms, r5)
                | none => none
              | d :: r4 => if d = rbraceChar then some ([(k, v)], r4) else none
              | [] => none
            | none => none
          | _ => none
        | none => none
      else none
    | [] => none

end

/-- Model of `JSON.parse(s)`: parse one value, require only whitespace
to remain. -/
def jsonParse (cs : List Char) : Option JVal :=
  match parseVal (2 * cs.length + 2) cs with
  | some (v, rest) => if skipWs rest = [] then some v else none
  | none => none

/-- Property access `v[key]` on a JSON value: `none` models JavaScript's
`undefined` (missing field, or access on a non-object).  JavaScript would
throw a `TypeError` for property access on `null`; the model is total and
the theorems about field access restrict themselves to non-`null`
messages. -/
def getField (v : JVal) (key : List Char) : Option JVal :=
  match v with
  | JVal.obj fs => (fs.reverse.find? (fun p => decide (p.1 = key))).map Prod.snd
  | _ => none

/-- Whether a JSON number lexeme denotes zero: every mantissa digit
(before any exponent marker) is outside `1`–`9`. -/
def numLexemeIsZero (s : List Char) : Bool :=
  ((s.takeWhile (fun c => !(c == 'e') && !(c == 'E'))).filter
    (fun c => '1' ≤ c && c ≤ '9')).isEmpty

/-- JavaScript truthiness of a JSON value (`null`, `false`, `0`, `""`
are falsy; arrays and objects are always truthy). -/
def jvalTruthy : JVal → Bool
  | JVal.null => false
  | JVal.bool b => b
  | JVal.num s => !(numLexemeIsZero s)
  | JVal.str s => !s.isEmpty
  | JVal.arr _ => true
  | JVal.obj _ => true

mutual

/-- JavaScript string coercion `'' + v` of a JSON value.  Numbers are
rendered as their source lexeme — an approximation of JS number
formatting (`1.0` would really print as `1`); no theorem below depends
on number coercion. -/
def jsToString : JVal → List Char
  | JVal.null => "null".toList
  | JVal.bool true => "true".toList
  | JVal.bool false => "false".toList
  | JVal.num s => s
  | JVal.str s => s
  | JVal.arr vs => jsToStringList vs
  | JVal.obj _ => "[object Object]".toList

/-- `Array.prototype.join(',')`: elements comma-separated, `null`
rendered as the empty string. -/
def jsToStringList : List JVal → List Char
  | [] => []
  | v :: vs =>
    let headStr := match v with | JVal.null => [] | w => jsToString w
    match vs with
    | [] => headStr
    | _ => headStr ++ ',' :: jsToStringList vs

end

/-! ## `callWebhookStream` — chunked message reassembly
(src/services/webhookService.js:27-71) -/

def textKey : List Char := "text".toList

/-- Classification of one emitted piece (a complete line, or the final
buffer flush): whitespace-only pieces are dropped; a piece that
`JSON.parse`s becomes the parsed structure; otherwise the trimmed text is
wrapped as `{text: <trimmed>}` (webhookService.js:40-51 and 57-64). -/
def classifyPiece (piece : List Char) : Option JVal :=
  if jsTrim piece = [] then none
  else
    match jsonParse piece with
    | some v => some v
    | none => some (JVal.obj [(textKey, JVal.str (jsTrim piece))])

/-- One `data` event (webhookService.js:30-53): append the chunk's
decoded text to the buffer, split on `'\n'`, keep the popped last piece
as the new buffer, and push each remaining non-blank line onto
`responses` in order. -/
def webhookOnData (buffer : List Char) (chunkBytes : List Nat)
    (responses : List JVal) : List Char × List JVal :=
  let buf := buffer ++ utf8Decode chunkBytes
  let lines := jsSplitChar '\n' buf
  let newBuffer := lines.getLastD []
  let complete := lines.dropLast
  (newBuffer,
    complete.foldl
      (fun rs line =>
        match classifyPiece line with
        | some m => rs ++ [m]
        | none => rs)
      responses)

/-- The `end` event (webhookService.js:55-68): flush a non-blank
remaining buffer as one final message. -/
def webhookOnEnd (buffer : List Char) (responses : List JVal) : List JVal :=
  match classifyPiece buffer with
  | some m => responses ++ [m]
  | none => responses

/-- The complete message sequence `callWebhookStream` resolves with,
for a given sequence of raw byte chunks. -/
def callWebhookCollect (chunks : List (List Nat)) : List JVal :=
  let st := chunks.foldl
    (fun (st : List Char × List JVal) ch => webhookOnData st.1 ch st.2)
    ([], [])
  webhookOnEnd st.1 st.2

/-! ## `extractTextFromResponse` (src/services/webhookService.js:84-108) -/

def typeKey : List Char := "type".toList

def contentKey : List Char := "content".toList

def messageKey : List Char := "message".toList

def itemStr : List Char := "item".toList

def truthyOpt : Option JVal → Bool
  | some v => jvalTruthy v
  | none => false

/-- Whether a JSON value is exactly the string `'item'` (the `!==`
comparison in `response.type !== 'item'`). -/
def isItemStr : JVal → Bool
  | JVal.str s => decide (s = itemStr)
  | _ => false

/-- Model of `extractTextFromResponse` (webhookService.js:84-108); JS
truthiness governs every `if`.  (On a `null` message the real code would
throw a `TypeError` at the first property access; the model is total, and
theorems restrict to non-`null` messages.) -/
def extractTextFromResponse (r : JVal) : Option JVal :=
  if (match getField r typeKey with
      | some t => jvalTruthy t && !(isItemStr t)
      | none => false) then none
  else if truthyOpt (getField r contentKey) then getField r contentKey
  else if (match r with | JVal.str _ => true | _ => false) then some r
  else if truthyOpt (getField r textKey) then getField r textKey
  else if truthyOpt (getField r messageKey) then getField r messageKey
  else none

/-- The accumulation loop shared by all three routes
(`let accumulatedText = ''; for (...) { const content = extract(...);
if (content) accumulatedText += content; }`). -/
def accumulateText (responses : List JVal) : List Char :=
  responses.foldl
    (fun acc r =>
      match extractTextFromResponse r with
      | some v => if jvalTruthy v then acc ++ jsToString v else acc
      | none => acc)
    []

/-! ## `splitIntoSentences` (src/services/webhookService.js:120-155) -/

/-- The characters the first-stage regex
`/[^.!?।॥)\n]+[.!?।॥)]+/g` treats as sentence terminators — note that
the closing parenthesis is among them. -/
def isTermChar (c : Char) : Bool :=
  c == '.' || c == '!' || c == '?' || c == '।' || c == '॥' || c == ')'

/-- The first character class of the regex: neither a terminator nor a
newline. -/
def isPlainChar (c : Char) : Bool := !(isTermChar c) && !(c == '\n')

/-- One attempt of the regex engine to match `[^.!?।॥)\n]+[.!?।॥)]+` at
the start of `cs` (both `+` are greedy; backtracking the first class can
never help because every backtracked position still faces a
non-terminator character, so the greedy reading is exact). -/
def tryMatch (cs : List Char) : Option (List Char × List Char) :=
  if (cs.takeWhile isPlainChar).isEmpty then none
  else
    if ((cs.drop (cs.takeWhile isPlainChar).length).takeWhile isTermChar).isEmpty then none
    else
      some (cs.takeWhile isPlainChar ++
              (cs.drop (cs.takeWhile isPlainChar).length).takeWhile isTermChar,
            (cs.drop (cs.takeWhile isPlainChar).length).drop
              ((cs.drop (cs.takeWhile isPlainChar).length).takeWhile isTermChar).length)

theorem length_takeWhile_le' (p : Char → Bool) (l : List Char) :
    (l.takeWhile p).length ≤ l.length := by
  induction l with
  | nil => simp
  | cons c rest ih =>
    by_cases h : p c
    · simp only [List.takeWhile_cons, h, if_true]
      simpa using ih
    · simp [List.takeWhile_cons, h]

theorem tryMatch_some_length {cs m rest : List Char}
    (h : tryMatch cs = some (m, rest)) : rest.length < cs.length := by
  unfold tryMatch at h
  by_cases h1 : (cs.takeWhile isPlainChar).isEmpty
  · simp [h1] at h
  · by_cases h2 : ((cs.drop (cs.takeWhile isPlainChar).length).takeWhile isTermChar).isEmpty
    · simp [h1, h2] at h
    · simp only [h1, h2, if_false] at h
      injection h with h'
      have hrest := congrArg Prod.snd h'
      simp only [] at hrest
      rw [← hrest]
      have hk : 0 < (cs.takeWhile isPlainChar).length := by
        cases hq : cs.takeWhile isPlainChar with
        | nil => rw [hq] at h1; exact absurd rfl h1
        | cons x xs => simp [hq]
      have hk2 : (cs.takeWhile isPlainChar).length ≤ cs.length :=
        length_takeWhile_le' _ _
      simp only [List.length_drop]
      omega

/-- The global scan of `text.match(/[^.!?।॥)\n]+[.!?।॥)]+/g)`: try a
match at each position; after a match resume right behind it, after a
failure advance one character.  `[]` models a `null` match result.
(Fuelled loop; every step consumes at least one character, so fuel equal
to the input length — supplied by `regexScan` — always suffices.) -/
def regexScanAux : Nat → List Char → List (List Char)
  | 0, _ => []
  | _ + 1, [] => []
  | fuel + 1, c :: tail =>
    match tryMatch (c :: tail) with
    | some (m, rest) => m :: regexScanAux fuel rest
    | none => regexScanAux fuel tail

def regexScan (cs : List Char) : List (List Char) := regexScanAux cs.length cs

theorem length_dropWhile_le' (p : Char → Bool) (l : List Char) :
    (l.dropWhile p).length ≤ l.length := by
  induction l with
  | nil => simp
  | cons c rest ih =>
    by_cases h : p c
    · simp only [List.dropWhile_cons, h, if_true, List.length_cons]
      omega
    · simp [List.dropWhile_cons, h]

theorem cons_dropWhile_length_lt {p : Char → Bool} {c : Char} {tail : List Char}
    (h : p c = true) : ((c :: tail).dropWhile p).length < (c :: tail).length := by
  simp only [List.dropWhile_cons, h, if_true, List.length_cons]
  have := length_dropWhile_le' p tail
  omega

theorem cons_dropWhile_drop_length_lt {p : Char → Bool} {c : Char} {tail : List Char}
    (h : p c = true) (k : Nat) :
    (((c :: tail).dropWhile p).drop k).length < (c :: tail).length := by
  have h1 : ((c :: tail).dropWhile p).length < (c :: tail).length :=
    cons_dropWhile_length_lt h
  have h2 : (((c :: tail).dropWhile p).drop k).length ≤ ((c :: tail).dropWhile p).length := by
    simp [List.length_drop]
  omega

/-- Run-based description of a punctuation-boundary split: each maximal
run of `plain` characters that is immediately followed by at least one
`term` character yields one unit, namely the run together with the
maximal following run of `term` characters; a `plain` run followed by
anything else is dropped, as is any character that is neither. -/
def runScanWithAux (plain term : Char → Bool) : Nat → List Char → List (List Char)
  | 0, _ => []
  | _ + 1, [] => []
  | fuel + 1, c :: tail =>
    if plain c then
      if (((c :: tail).dropWhile plain).takeWhile term).isEmpty then
        runScanWithAux plain term fuel ((c :: tail).dropWhile plain)
      else
        ((c :: tail).takeWhile plain ++ ((c :: tail).dropWhile plain).takeWhile term) ::
          runScanWithAux plain term fuel
            (((c :: tail).dropWhile plain).drop
              (((c :: tail).dropWhile plain).takeWhile term).length)
    else runScanWithAux plain term fuel tail

def runScanWith (plain term : Char → Bool) (cs : List Char) : List (List Char) :=
  runScanWithAux plain term cs.length cs

/-- The first stage as the frozen claim describes it: terminator set
`{., !, ?, ।, ॥}` only (no closing parenthesis), and no special role for
the newline. -/
def isTerm5 (c : Char) : Bool :=
  c == '.' || c == '!' || c == '?' || c == '।' || c == '॥'

/-- Stage one as described by the claim (terminators `{., !, ?, ।, ॥}`,
every other character a run character). -/
def claimStage1 (cs : List Char) : List (List Char) :=
  runScanWith (fun c => !(isTerm5 c)) isTerm5 cs

/-- Stage one as the code actually behaves, in run-based form: the
terminator set additionally contains `)` and the runs exclude newlines. -/
def amendedStage1 (cs : List Char) : List (List Char) :=
  runScanWith isPlainChar isTermChar cs

/-! ### Third-stage split `text.split(/\s{2,}|\s+(?=[A-Z])/)` -/

/-- Length of a separator-regex match anchored at the start of `cs`
(0 when neither alternative matches here — a real match always has
length ≥ 1): a greedy run of two-or-more whitespace characters, or a
single whitespace character whose successor is an ASCII capital
(lookahead, not consumed). -/
def sepMatchLen (cs : List Char) : Nat :=
  if 2 ≤ (cs.takeWhile isJsWs).length then (cs.takeWhile isJsWs).length
  else if (cs.takeWhile isJsWs).length = 1 then
    match cs.drop 1 with
    | d :: _ => if 'A' ≤ d && d ≤ 'Z' then 1 else 0
    | [] => 0
  else 0

/-- The scan underlying `String.prototype.split` with the stage-three
separator regex: look for a separator match at each position; a match
ends the current piece and is itself discarded.  (Fuelled loop; every
step consumes at least one character — separator matches are non-empty —
so fuel equal to the input length, supplied by `stage3Split`, always
suffices.) -/
def s3Aux : Nat → List Char → List Char → List (List Char)
  | 0, _, cur => [cur.reverse]
  | _ + 1, [], cur => [cur.reverse]
  | fuel + 1, c :: rest, cur =>
    if sepMatchLen (c :: rest) = 0 then s3Aux fuel rest (c :: cur)
    else cur.reverse :: s3Aux fuel ((c :: rest).drop (sepMatchLen (c :: rest))) []

/-- Model of `text.split(/\s{2,}|\s+(?=[A-Z])/)` (webhookService.js:145). -/
def stage3Split (cs : List Char) : List (List Char) := s3Aux cs.length cs []

/-- Model of `splitIntoSentences` (webhookService.js:120-155): empty
check, then the four-stage cascade — regex match, newline split,
long-text whitespace/capital split, whole-text fallback. -/
def splitIntoSentences (text : List Char) : List (List Char) :=
  if jsTrim text = [] then []
  else
    if !(regexScan (jsTrim text)).isEmpty then
      ((regexScan (jsTrim text)).map jsTrim).filter (fun s => !s.isEmpty)
    else if 1 < (jsSplitChar '\n' (jsTrim text)).length then
      ((jsSplitChar '\n' (jsTrim text)).map jsTrim).filter (fun s => !s.isEmpty)
    else if 100 < (jsTrim text).length ∧ 1 < (stage3Split (jsTrim text)).length then
      ((stage3Split (jsTrim text)).map jsTrim).filter (fun s => !s.isEmpty)
    else [jsTrim text]

/-! ## The Express routes (src/unnamed/part_003, src/unnamed/part_002)

The STT, webhook and TTS collaborators are opaque HTTP calls; they are
modelled as oracles (`Except` values/functions whose `error` payload is
the thrown `error.message`).  Each endpoint model also returns the list
of arguments on which the TTS collaborator was invoked, so that
"no TTS call was made" is expressible. -/

/-- The SSE events `sendEvent` can emit in `process-recording-stream`. -/
inductive Ev : Type where
  | start : Ev
  | sttStart : Ev
  | sttComplete (sttText : List Char) : Ev
  | webhookStart : Ev
  | webhookComplete (responseCount : Nat) : Ev
  | ttsStart (totalSentences : Nat) (accumulatedText : List Char) : Ev
  | ttsResult (sentenceIndex : Nat) (sentence : List Char) (audio : List Char) : Ev
  | ttsError (sentenceIndex : Nat) (sentence : List Char) (errMsg : List Char) : Ev
  | completeEv (totalSentences successCount : Nat) : Ev
  | errorEv (errMsg : List Char) : Ev
deriving DecidableEq, Repr

/-- The progressive per-sentence TTS loop
(`process-recording-stream`, part_003:122-156): a fold over the indexed
sentences threading (emitted events, `successCount`, TTS invocations).
Short sentences (trimmed length < 2) are skipped; a successful call
emits `tts_result` with `sentenceIndex: successCount`; a failed call is
caught and emits `tts_error` with `sentenceIndex: i + 1`. -/
def streamTtsFold (tts : List Char → Except (List Char) (List Char))
    (sentences : List (List Char)) : List Ev × Nat × List (List Char) :=
  sentences.enum.foldl
    (fun (st : List Ev × Nat × List (List Char)) (p : Nat × List Char) =>
      if (jsTrim p.2).length < 2 then st
      else
        match tts p.2 with
        | Except.ok b =>
          (st.1 ++ [Ev.ttsResult (st.2.1 + 1) p.2 b], st.2.1 + 1, st.2.2 ++ [p.2])
        | Except.error e =>
          (st.1 ++ [Ev.ttsError (p.1 + 1) p.2 e], st.2.1, st.2.2 ++ [p.2]))
    ([], 0, [])

/-- The progressive TTS phase including the final `complete` event
(part_003:122-167). -/
def streamTtsPhase (tts : List Char → Except (List Char) (List Char))
    (sentences : List (List Char)) : List Ev × List (List Char) :=
  ((streamTtsFold tts sentences).1 ++
    [Ev.completeEv sentences.length (streamTtsFold tts sentences).2.1],
   (streamTtsFold tts sentences).2.2)

/-- One entry of the aggregate endpoint's `results` array
(part_003:257-261). -/
structure AggResult : Type where
  sentenceIndex : Nat
  sentence : List Char
  ttsBase64 : List Char
deriving DecidableEq, Repr

/-- The aggregate per-sentence TTS loop (`process-recording`,
part_003:245-262): no per-sentence catch, so a TTS failure propagates
(`Except.error`) and aborts the loop; `sentenceIndex` is
`results.length + 1`.  Also returns the TTS invocations made. -/
def aggTtsLoop (tts : List Char → Except (List Char) (List Char)) :
    List (List Char) → List AggResult →
      Except (List Char) (List AggResult) × List (List Char)
  | [], acc => (Except.ok acc, [])
  | s :: rest, acc =>
    if (jsTrim s).length < 2 then aggTtsLoop tts rest acc
    else
      match tts s with
      | Except.ok b =>
        ((aggTtsLoop tts rest (acc ++ [⟨acc.length + 1, s, b⟩])).1,
         s :: (aggTtsLoop tts rest (acc ++ [⟨acc.length + 1, s, b⟩])).2)
      | Except.error e => (Except.error e, [s])

/-- The external collaborators of one run. -/
structure RunOracles : Type where
  stt : Except (List Char) (List Char)
  webhook : List Char → Except (List Char) (List JVal)
  tts : List Char → Except (List Char) (List Char)

def noFileMsg : List Char := "No audio file provided".toList

/-- `POST /process-recording-stream` (part_003:23-181): the emitted SSE
event sequence and the TTS invocations. -/
def streamEndpoint (file : Bool) (o : RunOracles) : List Ev × List (List Char) :=
  if !file then ([Ev.errorEv noFileMsg], [])
  else
    match o.stt with
    | Except.error e => ([Ev.start, Ev.sttStart, Ev.errorEv e], [])
    | Except.ok sttText =>
      match o.webhook sttText with
      | Except.error e =>
        ([Ev.start, Ev.sttStart, Ev.sttComplete sttText, Ev.webhookStart,
          Ev.errorEv e], [])
      | Except.ok responses =>
        ([Ev.start, Ev.sttStart, Ev.sttComplete sttText, Ev.webhookStart,
          Ev.webhookComplete responses.length,
          Ev.ttsStart (splitIntoSentences (accumulateText responses)).length
            (accumulateText responses)] ++
          (streamTtsPhase o.tts (splitIntoSentences (accumulateText responses))).1,
         (streamTtsPhase o.tts (splitIntoSentences (accumulateText responses))).2)

/-- The HTTP response of the aggregate endpoint. -/
inductive AggResponse : Type where
  | ok (sttText : List Char) (webhookResponseCount : Nat)
      (accumulatedText : List Char) (results : List AggResult) : AggResponse
  | badRequest (errMsg : List Char) : AggResponse
  | serverError (errMsg : List Char) : AggResponse
deriving DecidableEq, Repr

/-- `POST /process-recording` (part_003:187-290): the JSON response
(400 on missing file, 500 via the catch on any thrown error) and the TTS
invocations. -/
def processRecordingEndpoint (file : Bool) (o : RunOracles) :
    AggResponse × List (List Char) :=
  if !file then (AggResponse.badRequest noFileMsg, [])
  else
    match o.stt with
    | Except.error e => (AggResponse.serverError e, [])
    | Except.ok sttText =>
      match o.webhook sttText with
      | Except.error e => (AggResponse.serverError e, [])
      | Except.ok responses =>
        match aggTtsLoop o.tts (splitIntoSentences (accumulateText responses)) [] with
        | (Except.ok rs, calls) =>
          (AggResponse.ok sttText responses.length (accumulateText responses) rs, calls)
        | (Except.error e, calls) => (AggResponse.serverError e, calls)

/-! ## WAV payload recombination
(`POST /process-recording-audio`, src/unnamed/part_002:378-431) -/

/-- `buffer.readUInt32LE(off)` (reads are in bounds in every use below;
out-of-range entries default to 0). -/
def readU32LE (b : List Nat) (off : Nat) : Nat :=
  b.getD off 0 + 0x100 * b.getD (off + 1) 0 + 0x10000 * b.getD (off + 2) 0 +
    0x1000000 * b.getD (off + 3) 0

/-- `writeUInt32LE`: the four little-endian bytes of `n % 2^32` (Node
throws a range error for `n ≥ 2^32`; the theorems below assume the
in-range case). -/
def u32Bytes (n : Nat) : List Nat :=
  [n % 0x100, n / 0x100 % 0x100, n / 0x10000 % 0x100, n / 0x1000000 % 0x100]

/-- `writeUInt16LE`. -/
def u16Bytes (n : Nat) : List Nat := [n % 0x100, n / 0x100 % 0x100]

/-- The byte test at offset `i` for the 4-byte `'data'` marker
`0x64 0x61 0x74 0x61` (part_002:387). -/
def markerAt (b : List Nat) (i : Nat) : Bool :=
  b.getD i 0 == 0x64 && b.getD (i + 1) 0 == 0x61 &&
  b.getD (i + 2) 0 == 0x74 && b.getD (i + 3) 0 == 0x61

/-- The marker scan `for (let i = 0; i < buffer.length - 8; i++) ...`
(part_002:385-393): try offsets `0 .. length - 9`; on the first hit
return the payload start `i + 8` and the declared length read at
`i + 4`. -/
def findDataChunk (b : List Nat) : Option (Nat × Nat) :=
  ((List.range (b.length - 8)).find? (fun i => markerAt b i)).map
    (fun i => (i + 8, readU32LE b (i + 4)))

/-- Per-buffer payload extraction (part_002:395-398): kept only when a
marker was found and the declared length is positive; `slice` clamps at
the end of the buffer. -/
def extractPayload (b : List Nat) : List Nat :=
  match findDataChunk b with
  | some (start, size) => if 0 < size then (b.drop start).take size else []
  | none => []

/-- The merged WAV buffer (part_002:401-431): a fresh 44-byte header
(RIFF size `36 + dataSize`, `fmt ` sub-chunk for 24 kHz mono 16-bit PCM,
`data` sub-chunk of `dataSize`) followed by the concatenated payloads. -/
def mergedWav (buffers : List (List Nat)) : List Nat :=
  [0x52, 0x49, 0x46, 0x46] ++
  u32Bytes (36 + ((buffers.map extractPayload).flatten).length) ++
  [0x57, 0x41, 0x56, 0x45] ++
  [0x66, 0x6D, 0x74, 0x20] ++ u32Bytes 16 ++ u16Bytes 1 ++ u16Bytes 1 ++
  u32Bytes 24000 ++ u32Bytes 48000 ++ u16Bytes 2 ++ u16Bytes 16 ++
  [0x64, 0x61, 0x74, 0x61] ++
  u32Bytes ((buffers.map extractPayload).flatten).length ++
  (buffers.map extractPayload).flatten

/-! ## Claim C2 — merged WAV layout -/

theorem mergedWav_decomp (buffers : List (List Nat)) :
    mergedWav buffers =
      ([0x52, 0x49, 0x46, 0x46] ++
       u32Bytes (36 + ((buffers.map extractPayload).flatten).length) ++
       [0x57, 0x41, 0x56, 0x45] ++ [0x66, 0x6D, 0x74, 0x20] ++ u32Bytes 16 ++
       u16Bytes 1 ++ u16Bytes 1 ++ u32Bytes 24000 ++ u32Bytes 48000 ++
       u16Bytes 2 ++ u16Bytes 16 ++ [0x64, 0x61, 0x74, 0x61] ++
       u32Bytes ((buffers.map extractPayload).flatten).length) ++
      (buffers.map extractPayload).flatten := by
  simp [mergedWav, List.append_assoc]

/-- **C2**: for every ordered sequence of input audio buffers, the merged
WAV is exactly 44 bytes of header plus the concatenated extracted
payloads: its total length is `44 + Σ`, the RIFF chunk-size field at
offset 4 reads back as `36 + Σ`, the data-size field at offset 40 reads
back as `Σ` (where `Σ` is the sum of the extracted payload lengths, the
in-range case of `writeUInt32LE`), the bytes after the header are the
payloads concatenated in input order, and a buffer with no `data` marker
or with declared payload length 0 contributes zero bytes. -/
theorem c2_merged_wav_layout (buffers : List (List Nat))
    (hsize : 36 + ((buffers.map extractPayload).flatten).length < 2 ^ 32) :
    (mergedWav buffers).length =
        44 + ((buffers.map extractPayload).flatten).length ∧
    readU32LE (mergedWav buffers) 4 =
        36 + ((buffers.map extractPayload).flatten).length ∧
    readU32LE (mergedWav buffers) 40 =
        ((buffers.map extractPayload).flatten).length ∧
    (mergedWav buffers).drop 44 = (buffers.map extractPayload).flatten ∧
    (∀ b, findDataChunk b = none → extractPayload b = []) ∧
    (∀ b start, findDataChunk b = some (start, 0) → extractPayload b = []) := by
  refine ⟨?_, ?_, ?_, ?_, ?_, ?_⟩
  · rw [mergedWav_decomp]
    simp [u32Bytes, u16Bytes]
    omega
  · set S := ((buffers.map extractPayload).flatten).length with hS
    rw [mergedWav_decomp, ← hS]
    simp [readU32LE, u32Bytes, u16Bytes, List.getD_append, List.getD]
    omega
  · set S := ((buffers.map extractPayload).flatten).length with hS
    rw [mergedWav_decomp, ← hS]
    simp [readU32LE, u32Bytes, u16Bytes, List.getD_append, List.getD]
    omega
  · rw [mergedWav_decomp]
    rw [show (44 : Nat) =
      ([0x52, 0x49, 0x46, 0x46] ++
       u32Bytes (36 + ((buffers.map extractPayload).flatten).length) ++
       [0x57, 0x41, 0x56, 0x45] ++ [0x66, 0x6D, 0x74, 0x20] ++ u32Bytes 16 ++
       u16Bytes 1 ++ u16Bytes 1 ++ u32Bytes 24000 ++ u32Bytes 48000 ++
       u16Bytes 2 ++ u16Bytes 16 ++ [0x64, 0x61, 0x74, 0x61] ++
       u32Bytes ((buffers.map extractPayload).flatten).length).length from by
        simp [u32Bytes, u16Bytes]]
    exact List.drop_left _ _
  · intro b hb
    unfold extractPayload
    rw [hb]
  · intro b start hb
    unfold extractPayload
    rw [hb]
    simp

/-- Witness for C2 at a concrete input: one buffer with a 2-byte payload,
one empty buffer, one whose only marker starts in its last 8 bytes, and
one with declared payload length 0. -/
theorem c2_merged_wav_layout_witness :
    (36 + (([[0x64, 0x61, 0x74, 0x61, 2, 0, 0, 0, 0xAA, 0xBB], [],
             [0, 0x64, 0x61, 0x74, 0x61, 0, 0, 0, 0],
             [0x64, 0x61, 0x74, 0x61, 0, 0, 0, 0, 1, 2]].map
        extractPayload).flatten).length < 2 ^ 32) ∧
    (mergedWav [[0x64, 0x61, 0x74, 0x61, 2, 0, 0, 0, 0xAA, 0xBB], [],
                [0, 0x64, 0x61, 0x74, 0x61, 0, 0, 0, 0],
                [0x64, 0x61, 0x74, 0x61, 0, 0, 0, 0, 1, 2]]).length = 46 ∧
    readU32LE (mergedWav [[0x64, 0x61, 0x74, 0x61, 2, 0, 0, 0, 0xAA, 0xBB], [],
                [0, 0x64, 0x61, 0x74, 0x61, 0, 0, 0, 0],
                [0x64, 0x61, 0x74, 0x61, 0, 0, 0, 0, 1, 2]]) 40 = 2 :=
  ⟨by decide,
   by
    have h := c2_merged_wav_layout
      [[0x64, 0x61, 0x74, 0x61, 2, 0, 0, 0, 0xAA, 0xBB], [],
       [0, 0x64, 0x61, 0x74, 0x61, 0, 0, 0, 0],
       [0x64, 0x61, 0x74, 0x61, 0, 0, 0, 0, 1, 2]] (by decide)
    rw [h.1]; decide,
   by
    have h := c2_merged_wav_layout
      [[0x64, 0x61, 0x74, 0x61, 2, 0, 0, 0, 0xAA, 0xBB], [],
       [0, 0x64, 0x61, 0x74, 0x61, 0, 0, 0, 0],
       [0x64, 0x61, 0x74, 0x61, 0, 0, 0, 0, 1, 2]] (by decide)
    rw [h.2.2.1]; decide⟩

/-! ## Claim C10 — marker-scan bounds -/

/-- **C10**: the marker scan only tries offsets `0 .. length − 9`, so the
little-endian length read at `offset + 4` stays in bounds; and for a
buffer whose first `data` marker begins within the last 8 bytes, the
scan reports no chunk and the buffer contributes zero payload bytes. -/
theorem c10_scan_bounds (b : List Nat) (p : Nat)
    (hp : markerAt b p = true)
    (hfirst : ∀ q, q < p → markerAt b q = false)
    (hlast : b.length ≤ p + 8) :
    (∀ i ∈ List.range (b.length - 8), i + 9 ≤ b.length) ∧
    findDataChunk b = none ∧
    extractPayload b = [] := by
  have hnone : findDataChunk b = none := by
    unfold findDataChunk
    rw [List.find?_eq_none.mpr]
    · rfl
    · intro i hi
      have hilt : i < b.length - 8 := List.mem_range.mp hi
      have : i < p := by omega
      simp [hfirst i this]
  refine ⟨?_, hnone, ?_⟩
  · intro i hi
    have := List.mem_range.mp hi
    omega
  · unfold extractPayload
    rw [hnone]

/-- Witness for C10: a 9-byte buffer whose only `data` marker starts at
offset 1 (inside the final 8 bytes). -/
theorem c10_scan_bounds_witness :
    markerAt [0, 0x64, 0x61, 0x74, 0x61, 0, 0, 0, 0] 1 = true ∧
    findDataChunk [0, 0x64, 0x61, 0x74, 0x61, 0, 0, 0, 0] = none ∧
    extractPayload [0, 0x64, 0x61, 0x74, 0x61, 0, 0, 0, 0] = [] :=
  ⟨by decide,
   (c10_scan_bounds [0, 0x64, 0x61, 0x74, 0x61, 0, 0, 0, 0] 1 (by decide)
     (fun q hq => by
       have hq0 : q = 0 := by omega
       subst hq0; decide)
     (by decide)).2.1,
   (c10_scan_bounds [0, 0x64, 0x61, 0x74, 0x61, 0, 0, 0, 0] 1 (by decide)
     (fun q hq => by
       have hq0 : q = 0 := by omega
       subst hq0; decide)
     (by decide)).2.2⟩

/-! ## Claim C1 — chunk-boundary invariance of the reassembler -/

/-- **C1** (failing-input evaluation): the UTF-8 encoding of `"é"`
(bytes `C3 A9`) processed as one chunk yields the message
`{text: "é"}`, but split between its two bytes it yields
`{text: "��"}` — the reassembly is *not* invariant under
splits that fall inside a multi-byte character, because each chunk is
decoded independently by `chunk.toString('utf8')`
(webhookService.js:31). -/
theorem c1_multibyte_split_divergence :
    callWebhookCollect [[0xC3, 0xA9]] =
      [JVal.obj [(textKey, JVal.str [Char.ofNat 0xE9])]] ∧
    callWebhookCollect [[0xC3], [0xA9]] =
      [JVal.obj [(textKey, JVal.str [replChar, replChar])]] ∧
    ([Char.ofNat 0xE9] : List Char) ≠ [replChar, replChar] :=
  ⟨rfl, rfl, by decide⟩

/-! ## Claim C6 — per-chunk behaviour of the reassembler -/

theorem foldl_push_filterMap (f : List Char → Option JVal)
    (lines : List (List Char)) (rs : List JVal) :
    lines.foldl
      (fun acc line =>
        match f line with
        | some m => acc ++ [m]
        | none => acc) rs = rs ++ lines.filterMap f := by
  induction lines generalizing rs with
  | nil => simp
  | cons l ls ih =>
    cases hf : f l with
    | some m => simp [List.foldl_cons, hf, ih, List.filterMap_cons]
    | none => simp [List.foldl_cons, hf, ih, List.filterMap_cons]

/-- **C6**: on each chunk the reassembler appends the decoded chunk text
to the pending buffer, splits on `'\n'`, emits every piece but the last
in order (whitespace-only pieces dropped; a piece that parses as JSON
becomes the parsed structure, otherwise `{text: <trimmed>}`), and keeps
the last piece as the new buffer; at end-of-stream a buffer that is
non-empty after trimming is emitted as one final message under the same
classification. -/
theorem c6_reassembler_step (buffer : List Char) (chunk : List Nat)
    (responses : List JVal) :
    webhookOnData buffer chunk responses =
      ((jsSplitChar '\n' (buffer ++ utf8Decode chunk)).getLastD [],
       responses ++
         ((jsSplitChar '\n' (buffer ++ utf8Decode chunk)).dropLast.filterMap
           classifyPiece)) ∧
    (∀ piece, classifyPiece piece = none ↔ jsTrim piece = []) ∧
    (∀ piece v, jsonParse piece = some v → jsTrim piece ≠ [] →
      classifyPiece piece = some v) ∧
    (∀ piece, jsonParse piece = none → jsTrim piece ≠ [] →
      classifyPiece piece = some (JVal.obj [(textKey, JVal.str (jsTrim piece))])) ∧
    (∀ buf rs, jsTrim buf = [] → webhookOnEnd buf rs = rs) ∧
    (∀ buf rs, jsTrim buf ≠ [] →
      ∃ m, classifyPiece buf = some m ∧ webhookOnEnd buf rs = rs ++ [m]) := by
  refine ⟨?_, ?_, ?_, ?_, ?_, ?_⟩
  · simp only [webhookOnData]
    rw [foldl_push_filterMap]
  · intro piece
    unfold classifyPiece
    by_cases h : jsTrim piece = []
    · simp [h]
    · rw [if_neg h]
      constructor
      · intro hc
        cases hp : jsonParse piece <;> rw [hp] at hc <;> simp at hc
      · intro hc
        exact absurd hc h
  · intro piece v hv ht
    unfold classifyPiece
    simp [ht, hv]
  · intro piece hv ht
    unfold classifyPiece
    simp [ht, hv]
  · intro buf rs h
    unfold webhookOnEnd classifyPiece
    simp [h]
  · intro buf rs h
    unfold webhookOnEnd classifyPiece
    cases hp : jsonParse buf with
    | some v => exact ⟨v, by simp [h, hp], by simp [h, hp]⟩
    | none =>
      exact ⟨JVal.obj [(textKey, JVal.str (jsTrim buf))],
        by simp [h, hp], by simp [h, hp]⟩

/-- Witness for C6 at concrete inputs: the chunk `"a\nb"` with pending
buffer `"x"` emits `{text: "xa"}` and leaves `"b"` pending; a non-JSON
flush piece is wrapped with its trimmed text. -/
theorem c6_reassembler_step_witness :
    webhookOnData ['x'] [0x61, 0x0A, 0x62] [] =
      (['b'], [JVal.obj [(textKey, JVal.str ['x', 'a'])]]) ∧
    jsonParse ['h', 'i'] = none ∧ jsTrim ['h', 'i'] ≠ [] ∧
    classifyPiece ['h', 'i'] = some (JVal.obj [(textKey, JVal.str ['h', 'i'])]) :=
  ⟨by
    rw [(c6_reassembler_step ['x'] [0x61, 0x0A, 0x62] []).1]
    rfl,
   rfl, by decide,
   by
    have h := (c6_reassembler_step [] [] []).2.2.2.1 ['h', 'i'] rfl (by decide)
    rw [h]
    rfl⟩

/-! ## Claim C5 — message filtering and text extraction -/

/-- The first `some` in a list of candidates. -/
def firstSome : List (Option JVal) → Option JVal
  | [] => none
  | some v :: _ => some v
  | none :: rest => firstSome rest

/-- A field value, kept only when truthy. -/
def truthyField (r : JVal) (key : List Char) : Option JVal :=
  match getField r key with
  | some v => if jvalTruthy v then some v else none
  | none => none

/-- The message itself, when it is a plain string (returned by the code
even when it is the empty string). -/
def selfIfString (r : JVal) : Option JVal :=
  match r with
  | JVal.str _ => some r
  | _ => none

/-- The amended description of `extractTextFromResponse`: a message is
dropped iff it carries a *truthy* `type` tag other than the string
`'item'`; otherwise the extracted value is the first of — a truthy
`content` field, the message itself if it is a string, a truthy `text`
field, a truthy `message` field — and `null` if none apply. -/
def extractTextAmended (r : JVal) : Option JVal :=
  match getField r typeKey with
  | some t =>
    if jvalTruthy t && !(isItemStr t) then none
    else firstSome [truthyField r contentKey, selfIfString r,
                    truthyField r textKey, truthyField r messageKey]
  | none => firstSome [truthyField r contentKey, selfIfString r,
                       truthyField r textKey, truthyField r messageKey]

/-- The claim's counterexample message `{type: "", content: "x"}`. -/
def c5Msg : JVal := JVal.obj [(typeKey, JVal.str []), (contentKey, JVal.str ['x'])]

/-- **C5 counterexample**: a message that *carries* a `type` tag whose
value (the empty string) is not `'item'` is, contrary to the claim, not
dropped: because the code tests JS truthiness rather than presence, the
falsy tag passes the filter and the content `"x"` is extracted. -/
theorem c5_type_tag_counterexample :
    getField c5Msg typeKey = some (JVal.str []) ∧
    JVal.str [] ≠ JVal.str itemStr ∧
    extractTextFromResponse c5Msg = some (JVal.str ['x']) :=
  ⟨rfl,
   by
    intro h
    injection h with h'
    exact absurd h' (by decide),
   rfl⟩

theorem accumulate_foldl_flatten (responses : List JVal) (acc : List Char) :
    responses.foldl
      (fun acc r =>
        match extractTextFromResponse r with
        | some v => if jvalTruthy v then acc ++ jsToString v else acc
        | none => acc) acc =
    acc ++ (responses.filterMap
      (fun r =>
        match extractTextFromResponse r with
        | some v => if jvalTruthy v then some (jsToString v) else none
        | none => none)).flatten := by
  induction responses generalizing acc with
  | nil => simp
  | cons r rest ih =>
    cases hr : extractTextFromResponse r with
    | some v =>
      by_cases hv : jvalTruthy v
      · simp [List.foldl_cons, hr, hv, ih, List.filterMap_cons]
      · simp [List.foldl_cons, hr, hv, ih, List.filterMap_cons]
    | none => simp [List.foldl_cons, hr, ih, List.filterMap_cons]

theorem selfIfString_eq_some {r s : JVal} (h : selfIfString r = some s) :
    s = r := by
  cases r <;> simp [selfIfString] at h <;> simp [h]

theorem selfIfString_match {r : JVal} :
    (match r with | JVal.str _ => true | _ => false) = (selfIfString r).isSome := by
  cases r <;> rfl

theorem extract_chain2 (r : JVal) :
    (if truthyOpt (getField r textKey) then getField r textKey
     else if truthyOpt (getField r messageKey) then getField r messageKey
     else none) =
    firstSome [truthyField r textKey, truthyField r messageKey] := by
  cases ht : getField r textKey with
  | some w =>
    by_cases hw : jvalTruthy w
    · simp [truthyOpt, truthyField, firstSome, ht, hw]
    · cases hm : getField r messageKey with
      | some u =>
        by_cases hu : jvalTruthy u
        · simp [truthyOpt, truthyField, firstSome, ht, hw, hm, hu]
        · simp [truthyOpt, truthyField, firstSome, ht, hw, hm, hu]
      | none => simp [truthyOpt, truthyField, firstSome, ht, hw, hm]
  | none =>
    cases hm : getField r messageKey with
    | some u =>
      by_cases hu : jvalTruthy u
      · simp [truthyOpt, truthyField, firstSome, ht, hm, hu]
      · simp [truthyOpt, truthyField, firstSome, ht, hm, hu]
    | none => simp [truthyOpt, truthyField, firstSome, ht, hm]

theorem extract_chain (r : JVal) :
    (if truthyOpt (getField r contentKey) then getField r contentKey
     else if (match r with | JVal.str _ => true | _ => false) then some r
     else if truthyOpt (getField r textKey) then getField r textKey
     else if truthyOpt (getField r messageKey) then getField r messageKey
     else none) =
    firstSome [truthyField r contentKey, selfIfString r,
               truthyField r textKey, truthyField r messageKey] := by
  rw [selfIfString_match]
  cases hc : getField r contentKey with
  | some v =>
    by_cases hv : jvalTruthy v
    · simp [truthyOpt, truthyField, firstSome, hc, hv]
    · cases hs : selfIfString r with
      | some s =>
        have hsr := selfIfString_eq_some hs
        simp [truthyOpt, truthyField, firstSome, hc, hv, hs, hsr]
      | none =>
        simp only [truthyOpt, truthyField, firstSome, hc, hv, hs,
          Option.isSome_none, Bool.false_eq_true, if_false]
        exact extract_chain2 r
  | none =>
    cases hs : selfIfString r with
    | some s =>
      have hsr := selfIfString_eq_some hs
      simp [truthyOpt, truthyField, firstSome, hc, hs, hsr]
    | none =>
      simp only [truthyOpt, truthyField, firstSome, hc, hs,
        Option.isSome_none, Bool.false_eq_true, if_false]
      exact extract_chain2 r

/-- **C5 amended**: for every non-`null` message, the code's extraction
equals the truthiness-based selection rule (`extractTextAmended`), and
accumulation is exactly the separator-free concatenation, in arrival
order, of the string coercions of the truthy extracted values. -/
theorem c5_extraction_amended :
    (∀ r : JVal, r ≠ JVal.null →
      extractTextFromResponse r = extractTextAmended r) ∧
    (∀ responses : List JVal,
      accumulateText responses =
        (responses.filterMap
          (fun r =>
            match extractTextFromResponse r with
            | some v => if jvalTruthy v then some (jsToString v) else none
            | none => none)).flatten) := by
  constructor
  · intro r _
    unfold extractTextFromResponse extractTextAmended
    cases hgt : getField r typeKey with
    | some t =>
      by_cases hb : jvalTruthy t && !(isItemStr t)
      · simp [hb]
      · simp only [hb, if_false]
        exact extract_chain r
    | none =>
      simp only []
      exact extract_chain r
  · intro responses
    unfold accumulateText
    rw [accumulate_foldl_flatten]
    simp

/-- Witness for C5-amended at a concrete input: the plain-string message
`"hi"` and a one-message response list. -/
theorem c5_extraction_amended_witness :
    JVal.str ['h', 'i'] ≠ JVal.null ∧
    extractTextFromResponse (JVal.str ['h', 'i']) =
      extractTextAmended (JVal.str ['h', 'i']) ∧
    accumulateText [JVal.str ['h', 'i']] = ['h', 'i'] :=
  ⟨by intro h; exact JVal.noConfusion h,
   c5_extraction_amended.1 (JVal.str ['h', 'i']) (by intro h; exact JVal.noConfusion h),
   by rw [c5_extraction_amended.2 [JVal.str ['h', 'i']]]; rfl⟩

/-! ## Claim C7 — progressive-mode per-sentence failure isolation -/

def isTtsResultEv : Ev → Bool
  | Ev.ttsResult _ _ _ => true
  | _ => false

def isTtsErrorEv : Ev → Bool
  | Ev.ttsError _ _ _ => true
  | _ => false

/-- The sentence payload of a TTS event. -/
def evSentence : Ev → List Char
  | Ev.ttsResult _ s _ => s
  | Ev.ttsError _ s _ => s
  | _ => []

/-- **C7**: in progressive mode, with 3 sentences all of trimmed length
≥ 2 where the TTS call fails for sentence 2 and succeeds for sentences 1
and 3, the emitted TTS-phase event stream is exactly two `tts_result`
events (for sentences 1 and 3), one `tts_error` event carrying sentence
2's original index and text, and a final `complete` — the per-sentence
failure does not abort the run. -/
theorem c7_progressive_failure_isolation (s1 s2 s3 b1 b3 e : List Char)
    (tts : List Char → Except (List Char) (List Char))
    (h1 : 2 ≤ (jsTrim s1).length) (h2 : 2 ≤ (jsTrim s2).length)
    (h3 : 2 ≤ (jsTrim s3).length)
    (ht1 : tts s1 = Except.ok b1) (ht2 : tts s2 = Except.error e)
    (ht3 : tts s3 = Except.ok b3) :
    (streamTtsPhase tts [s1, s2, s3]).1 =
      [Ev.ttsResult 1 s1 b1, Ev.ttsError 2 s2 e, Ev.ttsResult 2 s3 b3,
       Ev.completeEv 3 2] ∧
    ((streamTtsPhase tts [s1, s2, s3]).1.filter isTtsResultEv).map evSentence =
      [s1, s3] ∧
    (streamTtsPhase tts [s1, s2, s3]).1.filter isTtsErrorEv =
      [Ev.ttsError 2 s2 e] ∧
    (streamTtsPhase tts [s1, s2, s3]).1.getLast? = some (Ev.completeEv 3 2) := by
  have hn1 : ¬((jsTrim s1).length < 2) := by omega
  have hn2 : ¬((jsTrim s2).length < 2) := by omega
  have hn3 : ¬((jsTrim s3).length < 2) := by omega
  have heq : (streamTtsPhase tts [s1, s2, s3]).1 =
      [Ev.ttsResult 1 s1 b1, Ev.ttsError 2 s2 e, Ev.ttsResult 2 s3 b3,
       Ev.completeEv 3 2] := by
    unfold streamTtsPhase streamTtsFold
    simp [List.enum, List.enumFrom, List.foldl, hn1, hn2, hn3, ht1, ht2, ht3]
  refine ⟨heq, ?_, ?_, ?_⟩ <;>
    rw [heq] <;> simp [isTtsResultEv, isTtsErrorEv, evSentence]

/-- Witness for C7 at a concrete instantiation. -/
theorem c7_progressive_failure_isolation_witness :
    (streamTtsPhase
      (fun s => if s = ['t', 'w', 'o', '.'] then Except.error ['b', 'a', 'd']
                else Except.ok s)
      [['o', 'n', 'e', '.'], ['t', 'w', 'o', '.'], ['s', 'i', 'x', '.']]).1 =
      [Ev.ttsResult 1 ['o', 'n', 'e', '.'] ['o', 'n', 'e', '.'],
       Ev.ttsError 2 ['t', 'w', 'o', '.'] ['b', 'a', 'd'],
       Ev.ttsResult 2 ['s', 'i', 'x', '.'] ['s', 'i', 'x', '.'],
       Ev.completeEv 3 2] :=
  (c7_progressive_failure_isolation
    ['o', 'n', 'e', '.'] ['t', 'w', 'o', '.'] ['s', 'i', 'x', '.']
    ['o', 'n', 'e', '.'] ['s', 'i', 'x', '.'] ['b', 'a', 'd']
    (fun s => if s = ['t', 'w', 'o', '.'] then Except.error ['b', 'a', 'd']
              else Except.ok s)
    (by decide) (by decide) (by decide) rfl rfl rfl).1

/-! ## Claim C8 — STT failure aborts the run with no TTS call -/

/-- **C8**: when the STT collaborator call throws, both endpoints
terminate in the failed state — the stream endpoint emits exactly
`start`, `stt_start` and one `error` event, the aggregate endpoint
returns one 500 error response — and the TTS collaborator is never
invoked (the recorded TTS call list is empty). -/
theorem c8_stt_failure_no_tts (o : RunOracles) (e : List Char)
    (h : o.stt = Except.error e) :
    streamEndpoint true o = ([Ev.start, Ev.sttStart, Ev.errorEv e], []) ∧
    processRecordingEndpoint true o = (AggResponse.serverError e, []) := by
  constructor
  · unfold streamEndpoint
    rw [h]
    rfl
  · unfold processRecordingEndpoint
    rw [h]
    rfl

/-- The oracles of C8's witness run: STT throws, the other collaborators
would succeed if reached. -/
def c8Oracles : RunOracles :=
  ⟨Except.error ['b', 'o', 'o', 'm'], fun _ => Except.ok [], fun s => Except.ok s⟩

/-- Witness for C8 at a concrete run. -/
theorem c8_stt_failure_no_tts_witness :
    streamEndpoint true c8Oracles =
      ([Ev.start, Ev.sttStart, Ev.errorEv ['b', 'o', 'o', 'm']], []) ∧
    processRecordingEndpoint true c8Oracles =
      (AggResponse.serverError ['b', 'o', 'o', 'm'], []) :=
  c8_stt_failure_no_tts c8Oracles ['b', 'o', 'o', 'm'] rfl

/-! ## Claim C3 — skipping and sentence indexing -/

/-- Reference recursion for the progressive loop over the
(index, sentence) pairs, carrying the running success count `k`: a
success is reported under `k + 1` (the renumbered success counter), a
failure under `i + 1` (the original 1-based position). -/
def progRef (tts : List Char → Except (List Char) (List Char)) :
    List (Nat × List Char) → Nat → List Ev
  | [], _ => []
  | (i, s) :: rest, k =>
    if (jsTrim s).length < 2 then progRef tts rest k
    else
      match tts s with
      | Except.ok b => Ev.ttsResult (k + 1) s b :: progRef tts rest (k + 1)
      | Except.error e => Ev.ttsError (i + 1) s e :: progRef tts rest k

/-- Number of successful TTS calls in the progressive loop. -/
def progSucc (tts : List Char → Except (List Char) (List Char)) :
    List (Nat × List Char) → Nat
  | [] => 0
  | (_, s) :: rest =>
    if (jsTrim s).length < 2 then progSucc tts rest
    else
      match tts s with
      | Except.ok _ => progSucc tts rest + 1
      | Except.error _ => progSucc tts rest

/-- Reference recursion for the aggregate loop, carrying the count `k`
of results already produced: a synthesized sentence is reported under
`k + 1` (the renumbered results counter); a failure aborts. -/
def aggRef (tts : List Char → Except (List Char) (List Char)) :
    List (List Char) → Nat → Except (List Char) (List AggResult)
  | [], _ => Except.ok []
  | s :: rest, k =>
    if (jsTrim s).length < 2 then aggRef tts rest k
    else
      match tts s with
      | Except.error e => Except.error e
      | Except.ok b =>
        match aggRef tts rest (k + 1) with
        | Except.ok rs => Except.ok (⟨k + 1, s, b⟩ :: rs)
        | Except.error e => Except.error e

/-- The TTS invocations the aggregate loop makes (it stops at the first
failing sentence). -/
def aggCalls (tts : List Char → Except (List Char) (List Char)) :
    List (List Char) → List (List Char)
  | [] => []
  | s :: rest =>
    if (jsTrim s).length < 2 then aggCalls tts rest
    else
      match tts s with
      | Except.ok _ => s :: aggCalls tts rest
      | Except.error _ => [s]

theorem stream_fold_general (tts : List Char → Except (List Char) (List Char))
    (l : List (Nat × List Char)) :
    ∀ (evs : List Ev) (k : Nat) (calls : List (List Char)),
      l.foldl
        (fun (st : List Ev × Nat × List (List Char)) (p : Nat × List Char) =>
          if (jsTrim p.2).length < 2 then st
          else
            match tts p.2 with
            | Except.ok b =>
              (st.1 ++ [Ev.ttsResult (st.2.1 + 1) p.2 b], st.2.1 + 1, st.2.2 ++ [p.2])
            | Except.error e =>
              (st.1 ++ [Ev.ttsError (p.1 + 1) p.2 e], st.2.1, st.2.2 ++ [p.2]))
        (evs, k, calls) =
      (evs ++ progRef tts l k, k + progSucc tts l,
       calls ++ (l.map Prod.snd).filter (fun s => !decide ((jsTrim s).length < 2))) := by
  induction l with
  | nil => intro evs k calls; simp [progRef, progSucc]
  | cons p rest ih =>
    intro evs k calls
    obtain ⟨i, s⟩ := p
    by_cases hshort : (jsTrim s).length < 2
    · rw [List.foldl_cons]
      simp only [hshort, if_true, ih, progRef, progSucc, List.map_cons,
        List.filter_cons]
      simp [hshort]
    · rw [List.foldl_cons]
      cases hts : tts s with
      | ok b =>
        simp only [hshort, if_false]
        rw [ih]
        simp only [progRef, progSucc, List.map_cons, List.filter_cons, hts,
          if_neg hshort]
        simp [hshort, List.append_assoc]
        omega
      | error e =>
        simp only [hshort, if_false]
        rw [ih]
        simp only [progRef, progSucc, List.map_cons, List.filter_cons, hts,
          if_neg hshort]
        simp [hshort, List.append_assoc]

theorem agg_loop_general (tts : List Char → Except (List Char) (List Char))
    (l : List (List Char)) :
    ∀ acc : List AggResult,
      (aggTtsLoop tts l acc).1 =
        (match aggRef tts l acc.length with
         | Except.ok rs => Except.ok (acc ++ rs)
         | Except.error e => Except.error e) ∧
      (aggTtsLoop tts l acc).2 = aggCalls tts l := by
  induction l with
  | nil => intro acc; simp [aggTtsLoop, aggRef, aggCalls]
  | cons s rest ih =>
    intro acc
    by_cases hshort : (jsTrim s).length < 2
    · simp only [aggTtsLoop, aggRef, aggCalls, hshort, if_true]
      exact ih acc
    · cases hts : tts s with
      | ok b =>
        simp only [aggTtsLoop, aggRef, aggCalls]
        rw [if_neg hshort, if_neg hshort, if_neg hshort]
        simp only [hts]
        have h1 := (ih (acc ++ [⟨acc.length + 1, s, b⟩])).1
        have h2 := (ih (acc ++ [⟨acc.length + 1, s, b⟩])).2
        constructor
        · rw [h1]
          simp only [List.length_append, List.length_cons, List.length_nil]
          cases hrec : aggRef tts rest (acc.length + 1) with
          | ok rs => simp
          | error e => simp
        · rw [h2]
      | error e =>
        simp only [aggTtsLoop, aggRef, aggCalls]
        rw [if_neg hshort, if_neg hshort, if_neg hshort]
        simp only [hts]
        simp

theorem mem_aggCalls_not_short (tts : List Char → Except (List Char) (List Char))
    (l : List (List Char)) (s : List Char) (h : s ∈ aggCalls tts l) :
    2 ≤ (jsTrim s).length := by
  induction l with
  | nil => simp [aggCalls] at h
  | cons t rest ih =>
    by_cases hshort : (jsTrim t).length < 2
    · rw [aggCalls, if_pos hshort] at h
      exact ih h
    · rw [aggCalls, if_neg hshort] at h
      cases hts : tts t with
      | ok b =>
        rw [hts] at h
        rcases List.mem_cons.mp h with h1 | h1
        · subst h1; omega
        · exact ih h1
      | error e =>
        rw [hts] at h
        rcases List.mem_singleton.mp h with h1
        subst h1; omega

/-- `ttsOkAll`: an oracle that synthesizes every sentence successfully
(echoing the sentence as its audio). -/
def ttsOkAll : List Char → Except (List Char) (List Char) := fun s => Except.ok s

/-- **C3 counterexample**: with sentence sequence `["x", "ok."]` — the
first of trimmed length 1, hence skipped — the synthesized sentence
`"ok."` sits at original 1-based position 2, yet the aggregate results
list reports it under `sentenceIndex` 1 (`results.length + 1`), and the
progressive `tts_result` event likewise carries index 1 (`successCount`):
the claim's "original position, not a renumbered index" is false on both
code paths. -/
theorem c3_original_index_counterexample :
    (aggTtsLoop ttsOkAll [['x'], ['o', 'k', '.']] []).1 =
      Except.ok [⟨1, ['o', 'k', '.'], ['o', 'k', '.']⟩] ∧
    (streamTtsFold ttsOkAll [['x'], ['o', 'k', '.']]).1 =
      [Ev.ttsResult 1 ['o', 'k', '.'] ['o', 'k', '.']] ∧
    (1 : Nat) ≠ 2 :=
  ⟨rfl, rfl, by decide⟩

/-- **C3 amended**: sentences of trimmed length < 2 are skipped from
synthesis in both modes (every TTS invocation has trimmed length ≥ 2 and
a skipped sentence produces no result or event); `tts_error` events
carry the sentence's original 1-based position (`i + 1`); but
`tts_result` events and aggregate results are numbered by the running
success counter (`successCount` / `results.length + 1`) — a renumbered
index, which coincides with the original position only while nothing
before was skipped or failed.  `progRef`/`aggRef` state exactly this
indexing discipline. -/
theorem c3_indexing_amended :
    (∀ tts sentences,
      (streamTtsFold tts sentences).1 = progRef tts sentences.enum 0 ∧
      (streamTtsFold tts sentences).2.2 =
        sentences.filter (fun s => !decide ((jsTrim s).length < 2))) ∧
    (∀ tts sentences,
      (aggTtsLoop tts sentences []).1 = aggRef tts sentences 0 ∧
      (aggTtsLoop tts sentences []).2 = aggCalls tts sentences) ∧
    (∀ tts sentences s, s ∈ aggCalls tts sentences → 2 ≤ (jsTrim s).length) := by
  refine ⟨?_, ?_, mem_aggCalls_not_short⟩
  · intro tts sentences
    unfold streamTtsFold
    rw [stream_fold_general]
    constructor
    · simp
    · simp [List.enum_map_snd]
  · intro tts sentences
    have h := agg_loop_general tts sentences []
    refine ⟨?_, h.2⟩
    rw [h.1]
    simp only [List.length_nil]
    cases hr : aggRef tts sentences 0 with
    | ok rs => simp
    | error e => simp

/-- Witness for C3-amended at a concrete input. -/
theorem c3_indexing_amended_witness :
    (['o', 'k', '.'] ∈ aggCalls ttsOkAll [['x'], ['o', 'k', '.']]) ∧
    2 ≤ (jsTrim ['o', 'k', '.']).length :=
  ⟨by decide,
   c3_indexing_amended.2.2 ttsOkAll [['x'], ['o', 'k', '.']] ['o', 'k', '.']
     (by decide)⟩

/-! ## Claim C4 — the first-stage terminator set -/

theorem dropWhile_eq_drop_takeWhile (p : Char → Bool) (l : List Char) :
    l.drop (l.takeWhile p).length = l.dropWhile p := by
  induction l with
  | nil => rfl
  | cons c rest ih =>
    by_cases h : p c
    · simp only [List.takeWhile_cons, List.dropWhile_cons, h, if_true,
        List.length_cons, List.drop_succ_cons]
      exact ih
    · simp [List.takeWhile_cons, List.dropWhile_cons, h]

/-- **C4 counterexample**: on the input `"ab) cd"` the claim's
first-stage scanner (terminators `{., !, ?, ।, ॥}` only) finds no match
at all, yet the code's first stage matches `"ab)"` — the closing
parenthesis acts as a sentence terminator — and `splitIntoSentences`
returns `["ab)"]` instead of falling through to the later stages (which
would return `["ab) cd"]`). -/
theorem c4_terminator_set_counterexample :
    claimStage1 ['a', 'b', ')', ' ', 'c', 'd'] = [] ∧
    regexScan ['a', 'b', ')', ' ', 'c', 'd'] = [['a', 'b', ')']] ∧
    splitIntoSentences ['a', 'b', ')', ' ', 'c', 'd'] = [['a', 'b', ')']] :=
  ⟨rfl, rfl, rfl⟩

theorem regexScanAux_congr :
    ∀ (f g : Nat) (cs : List Char), cs.length ≤ f → cs.length ≤ g →
      regexScanAux f cs = regexScanAux g cs := by
  intro f
  induction f with
  | zero =>
    intro g cs hf _
    have : cs = [] := List.length_eq_zero.mp (by omega)
    subst this
    cases g <;> rfl
  | succ f ih =>
    intro g cs hf hg
    cases cs with
    | nil => cases g <;> rfl
    | cons c tail =>
      cases g with
      | zero => simp at hg
      | succ g =>
        cases htm : tryMatch (c :: tail) with
        | some p =>
          obtain ⟨m, rest⟩ := p
          have hlt := tryMatch_some_length htm
          simp only [regexScanAux, htm]
          rw [ih g rest (by simp at hlt hf ⊢; omega) (by simp at hlt hg ⊢; omega)]
        | none =>
          simp only [regexScanAux, htm]
          exact ih g tail (by simp at hf ⊢; omega) (by simp at hg ⊢; omega)

theorem tryMatch_none_of_no_term {cs : List Char}
    (hrun : cs.takeWhile isPlainChar ≠ [])
    (hterm : (cs.dropWhile isPlainChar).takeWhile isTermChar = []) :
    tryMatch cs = none := by
  unfold tryMatch
  rw [dropWhile_eq_drop_takeWhile, hterm]
  simp [hrun]

theorem regexScanAux_skip_run :
    ∀ (fuel : Nat) (cs : List Char), cs.length ≤ fuel →
      (cs.dropWhile isPlainChar).takeWhile isTermChar = [] →
      regexScanAux fuel cs = regexScanAux fuel (cs.dropWhile isPlainChar) := by
  intro fuel
  induction fuel with
  | zero =>
    intro cs hf _
    have : cs = [] := List.length_eq_zero.mp (by omega)
    subst this
    rfl
  | succ fuel ih =>
    intro cs hf hterm
    cases cs with
    | nil => rfl
    | cons c tail =>
      by_cases hp : isPlainChar c
      · have hdrop : (c :: tail).dropWhile isPlainChar = tail.dropWhile isPlainChar := by
          simp [List.dropWhile_cons, hp]
        have hrun : (c :: tail).takeWhile isPlainChar ≠ [] := by
          simp [List.takeWhile_cons, hp]
        have htm : tryMatch (c :: tail) = none :=
          tryMatch_none_of_no_term hrun hterm
        rw [hdrop] at hterm ⊢
        have htail : tail.length ≤ fuel := by simp at hf; omega
        have hdw : (tail.dropWhile isPlainChar).length ≤ tail.length :=
          length_dropWhile_le' _ _
        calc regexScanAux (fuel + 1) (c :: tail)
            = regexScanAux fuel tail := by simp only [regexScanAux, htm]
          _ = regexScanAux fuel (tail.dropWhile isPlainChar) := ih tail htail hterm
          _ = regexScanAux (fuel + 1) (tail.dropWhile isPlainChar) :=
              regexScanAux_congr fuel (fuel + 1) _ (by omega) (by omega)
      · rw [List.dropWhile_cons, if_neg hp]

theorem regexScanAux_eq_runScanWithAux :
    ∀ (fuel : Nat) (cs : List Char), cs.length ≤ fuel →
      regexScanAux fuel cs = runScanWithAux isPlainChar isTermChar fuel cs := by
  intro fuel
  induction fuel with
  | zero => intro cs _; rfl
  | succ fuel ih =>
    intro cs hf
    cases cs with
    | nil => rfl
    | cons c tail =>
      have htail : tail.length ≤ fuel := by simp at hf; omega
      by_cases hp : isPlainChar c
      · have hdrop : (c :: tail).dropWhile isPlainChar = tail.dropWhile isPlainChar := by
          simp [List.dropWhile_cons, hp]
        have hdw : (tail.dropWhile isPlainChar).length ≤ tail.length :=
          length_dropWhile_le' _ _
        cases hterm : ((c :: tail).dropWhile isPlainChar).takeWhile isTermChar with
        | nil =>
          have hterm' : (tail.dropWhile isPlainChar).takeWhile isTermChar = [] := by
            rw [← hdrop]; exact hterm
          have hskip := regexScanAux_skip_run (fuel + 1) (c :: tail) (by omega) hterm
          rw [hskip, hdrop]
          have hcongr := regexScanAux_congr (fuel + 1) fuel
            (tail.dropWhile isPlainChar) (by omega) (by omega)
          rw [hcongr, ih _ (by omega)]
          have hrhs : runScanWithAux isPlainChar isTermChar (fuel + 1) (c :: tail) =
              runScanWithAux isPlainChar isTermChar fuel (tail.dropWhile isPlainChar) := by
            simp only [runScanWithAux, hp, if_true]
            rw [hdrop, hterm']
            simp
          rw [hrhs]
        | cons t ts =>
          have hrun : (c :: tail).takeWhile isPlainChar ≠ [] := by
            simp [List.takeWhile_cons, hp]
          have htm : tryMatch (c :: tail) =
              some ((c :: tail).takeWhile isPlainChar ++
                      ((c :: tail).dropWhile isPlainChar).takeWhile isTermChar,
                    ((c :: tail).dropWhile isPlainChar).drop
                      (((c :: tail).dropWhile isPlainChar).takeWhile isTermChar).length) := by
            unfold tryMatch
            rw [dropWhile_eq_drop_takeWhile]
            rw [hterm]
            simp [hrun]
          have hrest : (((c :: tail).dropWhile isPlainChar).drop
              (((c :: tail).dropWhile isPlainChar).takeWhile isTermChar).length).length ≤ fuel := by
            rw [hdrop]
            simp only [List.length_drop]
            omega
          simp only [regexScanAux, htm]
          rw [ih _ hrest]
          have hne : (((c :: tail).dropWhile isPlainChar).takeWhile isTermChar).isEmpty
              = false := by
            rw [hterm]; rfl
          simp only [runScanWithAux, hp, if_true, hne, Bool.false_eq_true, if_false]
      · have hrun : (c :: tail).takeWhile isPlainChar = [] := by
          simp [List.takeWhile_cons, hp]
        have htm : tryMatch (c :: tail) = none := by
          unfold tryMatch
          rw [hrun]
          simp
        simp only [regexScanAux, htm, runScanWithAux, hp, Bool.false_eq_true, if_false]
        exact ih tail htail

/-- **C4 amended**: the first stage matches runs of one or more
terminators drawn from the set `{., !, ?, ।, ॥, )}` — the closing
parenthesis included — where the preceding run excludes newlines as well
as terminators, and a run not immediately followed by a terminator is
dropped; whenever at least one match exists, `splitIntoSentences`
returns exactly those matches, trimmed, the non-empty ones.  Formally:
the regex-engine scan coincides with the run-based description
`amendedStage1`, and the first stage returns its trimmed, filtered
output. -/
theorem c4_stage1_amended (text : List Char)
    (hmatch : regexScan (jsTrim text) ≠ []) :
    regexScan (jsTrim text) = amendedStage1 (jsTrim text) ∧
    splitIntoSentences text =
      ((amendedStage1 (jsTrim text)).map jsTrim).filter (fun s => !s.isEmpty) := by
  have heq : ∀ cs : List Char, regexScan cs = amendedStage1 cs := by
    intro cs
    unfold regexScan amendedStage1 runScanWith
    exact regexScanAux_eq_runScanWithAux cs.length cs le_rfl
  refine ⟨heq _, ?_⟩
  have ht : jsTrim text ≠ [] := by
    intro h
    rw [h] at hmatch
    exact hmatch rfl
  unfold splitIntoSentences
  rw [if_neg ht]
  have hcond : (!(regexScan (jsTrim text)).isEmpty) = true := by
    cases hr : regexScan (jsTrim text) with
    | nil => exact absurd hr hmatch
    | cons a as => rfl
  rw [if_pos hcond, heq]

/-- Witness for C4-amended at the concrete input `"hi."`. -/
theorem c4_stage1_amended_witness :
    regexScan (jsTrim ['h', 'i', '.']) ≠ [] ∧
    splitIntoSentences ['h', 'i', '.'] =
      ((amendedStage1 (jsTrim ['h', 'i', '.'])).map jsTrim).filter
        (fun s => !s.isEmpty) :=
  ⟨by decide, (c4_stage1_amended ['h', 'i', '.'] (by decide)).2⟩

/-! ## Claim C9 — segmenter totality and non-emptiness -/

theorem tryMatch_some_shape {cs m rest : List Char}
    (h : tryMatch cs = some (m, rest)) :
    ∃ t, t ∈ m ∧ isTermChar t = true := by
  unfold tryMatch at h
  by_cases h1 : (cs.takeWhile isPlainChar).isEmpty
  · simp [h1] at h
  · by_cases h2 : ((cs.drop (cs.takeWhile isPlainChar).length).takeWhile isTermChar).isEmpty
    · simp [h1, h2] at h
    · simp only [h1, h2, if_false] at h
      injection h with h'
      have hm := congrArg Prod.fst h'
      simp only [] at hm
      cases hterms : (cs.drop (cs.takeWhile isPlainChar).length).takeWhile isTermChar with
      | nil => rw [hterms] at h2; exact absurd rfl h2
      | cons t ts =>
        refine ⟨t, ?_, ?_⟩
        · rw [← hm, hterms]
          exact List.mem_append.mpr (Or.inr (List.mem_cons_self t ts))
        · have hmem : t ∈ (cs.drop (cs.takeWhile isPlainChar).length).takeWhile
              isTermChar := by
            rw [hterms]; exact List.mem_cons_self t ts
          exact List.mem_takeWhile_imp hmem

theorem regexScanAux_mem_term :
    ∀ (fuel : Nat) (cs m : List Char), m ∈ regexScanAux fuel cs →
      ∃ t, t ∈ m ∧ isTermChar t = true := by
  intro fuel
  induction fuel with
  | zero => intro cs m h; simp [regexScanAux] at h
  | succ fuel ih =>
    intro cs m h
    cases cs with
    | nil => simp [regexScanAux] at h
    | cons c tail =>
      cases htm : tryMatch (c :: tail) with
      | some p =>
        obtain ⟨m0, rest⟩ := p
        simp only [regexScanAux, htm] at h
        rcases List.mem_cons.mp h with h1 | h1
        · subst h1; exact tryMatch_some_shape htm
        · exact ih rest m h1
      | none =>
        simp only [regexScanAux, htm] at h
        exact ih tail m h

theorem isTermChar_not_ws {c : Char} (h : isTermChar c = true) :
    isJsWs c = false := by
  simp only [isTermChar, Bool.or_eq_true, beq_iff_eq] at h
  rcases h with ((((h | h) | h) | h) | h) | h <;> subst h <;> rfl

theorem s3Aux_head :
    ∀ (fuel : Nat) (cs cur : List Char),
      ∃ p ps, s3Aux fuel cs cur = p :: ps ∧ ∃ suffix, p = cur.reverse ++ suffix := by
  intro fuel
  induction fuel with
  | zero => intro cs cur; exact ⟨cur.reverse, [], rfl, [], by simp⟩
  | succ fuel ih =>
    intro cs cur
    cases cs with
    | nil => exact ⟨cur.reverse, [], rfl, [], by simp⟩
    | cons c rest =>
      by_cases hm : sepMatchLen (c :: rest) = 0
      · obtain ⟨p, ps, hps, suffix, hsuf⟩ := ih rest (c :: cur)
        refine ⟨p, ps, ?_, [c] ++ suffix, ?_⟩
        · simp only [s3Aux]
          rw [if_pos hm]
          exact hps
        · rw [hsuf, List.reverse_cons, List.append_assoc]
      · refine ⟨cur.reverse,
          s3Aux fuel ((c :: rest).drop (sepMatchLen (c :: rest))) [], ?_, [], by simp⟩
        simp only [s3Aux]
        rw [if_neg hm]

theorem sepMatchLen_zero_head {c : Char} {rest : List Char}
    (h : isJsWs c = false) : sepMatchLen (c :: rest) = 0 := by
  unfold sepMatchLen
  rw [List.takeWhile_cons]
  simp [h]

theorem trimmed_filter_ne_nil {X : List (List Char)} {x : List Char}
    (hx : x ∈ X) (hne : jsTrim x ≠ []) :
    (X.map jsTrim).filter (fun s => !s.isEmpty) ≠ [] := by
  have hmem : jsTrim x ∈ (X.map jsTrim).filter (fun s => !s.isEmpty) := by
    rw [List.mem_filter]
    refine ⟨List.mem_map_of_mem _ hx, ?_⟩
    cases h : jsTrim x with
    | nil => exact absurd h hne
    | cons a as => rfl
  exact List.ne_nil_of_mem hmem

theorem mem_trimmed_filter {X : List (List Char)} {s : List Char}
    (h : s ∈ (X.map jsTrim).filter (fun s => !s.isEmpty)) : jsTrim s ≠ [] := by
  rw [List.mem_filter] at h
  obtain ⟨hmem, hpred⟩ := h
  obtain ⟨x, hx, hxeq⟩ := List.mem_map.mp hmem
  subst hxeq
  rw [jsTrim_idem]
  intro hc
  rw [hc] at hpred
  simp at hpred

/-- **C9**: `splitIntoSentences` returns the empty sequence exactly when
its input is empty or whitespace-only; on every input with non-empty
trimmed form it returns at least one sentence; and every returned
sentence has non-empty trimmed form. -/
theorem c9_segmenter_totality (text : List Char) :
    (splitIntoSentences text = [] ↔ jsTrim text = []) ∧
    (jsTrim text ≠ [] → splitIntoSentences text ≠ []) ∧
    (∀ s ∈ splitIntoSentences text, jsTrim s ≠ []) := by
  by_cases h0 : jsTrim text = []
  · unfold splitIntoSentences
    rw [if_pos h0]
    exact ⟨⟨fun _ => h0, fun _ => rfl⟩, fun hc => absurd h0 hc, by simp⟩
  · have hne : splitIntoSentences text ≠ [] ∧
        ∀ s ∈ splitIntoSentences text, jsTrim s ≠ [] := by
      obtain ⟨c, cs, hcons, hcws⟩ := jsTrim_head_not_ws h0
      unfold splitIntoSentences
      rw [if_neg h0]
      by_cases h1 : (!(regexScan (jsTrim text)).isEmpty) = true
      · rw [if_pos h1]
        have hscan : regexScan (jsTrim text) ≠ [] := by
          intro hc; rw [hc] at h1; simp at h1
        obtain ⟨m, hm⟩ : ∃ m, m ∈ regexScan (jsTrim text) := by
          cases hr : regexScan (jsTrim text) with
          | nil => exact absurd hr hscan
          | cons a as => exact ⟨a, List.mem_cons_self a as⟩
        obtain ⟨t, htm, htterm⟩ :=
          regexScanAux_mem_term (jsTrim text).length (jsTrim text) m hm
        have hmne : jsTrim m ≠ [] :=
          jsTrim_ne_nil_of_mem htm (isTermChar_not_ws htterm)
        exact ⟨trimmed_filter_ne_nil hm hmne, fun s hs => mem_trimmed_filter hs⟩
      · rw [if_neg h1]
        by_cases h2 : 1 < (jsSplitChar '\n' (jsTrim text)).length
        · rw [if_pos h2]
          obtain ⟨ps, hps⟩ := jsSplitChar_head '\n' (jsTrim text)
          have hfirstmem : (jsTrim text).takeWhile (fun x => !(x == '\n')) ∈
              jsSplitChar '\n' (jsTrim text) := by
            rw [hps]; exact List.mem_cons_self _ _
          have hcnotnl : (c == '\n') = false := by
            cases hcc : c == '\n' with
            | false => rfl
            | true =>
              have hceq : c = '\n' := by simpa using hcc
              rw [hceq] at hcws
              exact absurd hcws (by decide)
          have hcfirst : c ∈ (jsTrim text).takeWhile (fun x => !(x == '\n')) := by
            rw [hcons, List.takeWhile_cons]
            simp [hcnotnl]
          have hfne : jsTrim ((jsTrim text).takeWhile (fun x => !(x == '\n'))) ≠ [] :=
            jsTrim_ne_nil_of_mem hcfirst hcws
          exact ⟨trimmed_filter_ne_nil hfirstmem hfne, fun s hs => mem_trimmed_filter hs⟩
        · rw [if_neg h2]
          by_cases h3 : 100 < (jsTrim text).length ∧
              1 < (stage3Split (jsTrim text)).length
          · rw [if_pos h3]
            have hsep : sepMatchLen (c :: cs) = 0 := sepMatchLen_zero_head hcws
            have hform : stage3Split (jsTrim text) = s3Aux cs.length cs [c] := by
              unfold stage3Split
              rw [hcons]
              simp only [List.length_cons, s3Aux]
              rw [if_pos hsep]
            obtain ⟨p, ps, hps, suffix, hsuf⟩ := s3Aux_head cs.length cs [c]
            have hpfirst : p ∈ stage3Split (jsTrim text) := by
              rw [hform, hps]; exact List.mem_cons_self _ _
            have hcmem : c ∈ p := by rw [hsuf]; simp
            have hpne : jsTrim p ≠ [] := jsTrim_ne_nil_of_mem hcmem hcws
            exact ⟨trimmed_filter_ne_nil hpfirst hpne, fun s hs => mem_trimmed_filter hs⟩
          · rw [if_neg h3]
            refine ⟨by simp, ?_⟩
            intro s hs
            have hseq : s = jsTrim text := List.mem_singleton.mp hs
            rw [hseq, jsTrim_idem]
            exact h0
    exact ⟨⟨fun hcon => absurd hcon hne.1, fun hh => absurd hh h0⟩,
           fun _ => hne.1, hne.2⟩

/-- Witness for C9 at the concrete input `"hi."`. -/
theorem c9_segmenter_totality_witness :
    jsTrim ['h', 'i', '.'] ≠ [] ∧ splitIntoSentences ['h', 'i', '.'] ≠ [] :=
  ⟨by decide, (c9_segmenter_totality ['h', 'i', '.']).2.1 (by decide)⟩
